import Mathlib

/-!
Shallow embedding of `src/neutts/phonemizers.py` (neuphonic/neutts).

Strings are modelled as `List Char` (Python strings are sequences of Unicode
code points, as are Lean `Char` lists).  The espeak engine version tuple
`(major, minor, patch)` is modelled as a `Version` record with Python's
lexicographic tuple ordering.  Each Python string substitution is embedded as
a structurally recursive pass over the character list:

* `re.sub(r"y(?!ː)", "ʏ", s)` scans left to right and replaces each `'y'`
  that is not immediately followed by `'ː'` (`subY`);
* `str.replace(old, new)` replaces non-overlapping occurrences left to
  right, never rescanning the replacement text (`subIQQQ`, `subQQ`, `subIQ`,
  `frenchClean`).

Fallible Python code (indexing `cleaned_list[0]`, `raise ValueError`) is
modelled with `Option` / `Except`.
-/

namespace NeuTTS

/-- Version tuple `(major, minor, patch)` reported by `EspeakBackend.version()`. -/
structure Version where
  major : Nat
  minor : Nat
  patch : Nat
deriving DecidableEq

/-- Python lexicographic tuple `<` on three-element version tuples. -/
def versionLt (a b : Version) : Bool :=
  decide (a.major < b.major ∨ (a.major = b.major ∧
    (a.minor < b.minor ∨ (a.minor = b.minor ∧ a.patch < b.patch))))

/-- Python lexicographic tuple `<=` on three-element version tuples. -/
def versionLe (a b : Version) : Bool :=
  decide (a.major < b.major ∨ (a.major = b.major ∧
    (a.minor < b.minor ∨ (a.minor = b.minor ∧ a.patch ≤ b.patch))))

/-- Guard `(1, 50, 0) <= self.espeak_version < (1, 52, 0)` of
`GermanPhonemizer.clean` (phonemizers.py line 89). -/
def inPatchRange (v : Version) : Bool :=
  versionLe ⟨1, 50, 0⟩ v && versionLt v ⟨1, 52, 0⟩

/-- Embedding of `re.sub(r"y(?!ː)", "ʏ", phonemes)` (phonemizers.py
lines 97-99): each `'y'` not immediately followed by `'ː'` becomes `'ʏ'`. -/
def subY : List Char → List Char
  | [] => []
  | c :: rest =>
    if c = 'y' ∧ rest.head? ≠ some 'ː' then 'ʏ' :: subY rest
    else c :: subY rest

/-- Embedding of `phonemes.replace("i???", "iɐʊɐ")` (phonemizers.py line 100). -/
def subIQQQ : List Char → List Char
  | [] => []
  | [a] => [a]
  | [a, b] => [a, b]
  | [a, b, c] => [a, b, c]
  | a :: b :: c :: d :: rest =>
    if a = 'i' ∧ b = '?' ∧ c = '?' ∧ d = '?' then
      'i' :: 'ɐ' :: 'ʊ' :: 'ɐ' :: subIQQQ rest
    else a :: subIQQQ (b :: c :: d :: rest)

/-- Embedding of `phonemes.replace("??", "ʊɐ")` (phonemizers.py line 101). -/
def subQQ : List Char → List Char
  | [] => []
  | [a] => [a]
  | a :: b :: rest =>
    if a = '?' ∧ b = '?' then 'ʊ' :: 'ɐ' :: subQQ rest
    else a :: subQQ (b :: rest)

/-- Embedding of `phonemes.replace("i?", "iɐ")` (phonemizers.py line 102). -/
def subIQ : List Char → List Char
  | [] => []
  | [a] => [a]
  | a :: b :: rest =>
    if a = 'i' ∧ b = '?' then 'i' :: 'ɐ' :: subIQ rest
    else a :: subIQ (b :: rest)

/-- Four substitution passes of the German patch, in source order. -/
def germanPatch (s : List Char) : List Char :=
  subIQ (subQQ (subIQQQ (subY s)))

/-- Diagnostics (warnings) emitted by `GermanPhonemizer.clean`. -/
inductive GermanDiag where
  | versionAffected
  | textChanged
  | residualMarker
deriving DecidableEq

/-- Embedding of `GermanPhonemizer.clean` (phonemizers.py lines 88-111),
returning the cleaned phoneme string together with the list of warnings
emitted, in order. -/
def germanCleanRun (v : Version) (s : List Char) : List Char × List GermanDiag :=
  if inPatchRange v then
    let out := germanPatch s
    (out,
      [GermanDiag.versionAffected]
        ++ (if out ≠ s then [GermanDiag.textChanged] else [])
        ++ (if '?' ∈ out then [GermanDiag.residualMarker] else []))
  else (s, [])

/-- Value returned by `GermanPhonemizer.clean`. -/
def germanClean (v : Version) (s : List Char) : List Char :=
  (germanCleanRun v s).1

/-- Embedding of `FrenchPhonemizer.clean` (phonemizers.py lines 80-82):
`phonemes.replace("-", "")`. -/
def frenchClean : List Char → List Char
  | [] => []
  | c :: rest => if c = '-' then frenchClean rest else c :: frenchClean rest

/-- Modelled from the spec words for claim C3: the input string with every
hyphen removed and nothing else changed. -/
def removeHyphens (s : List Char) : List Char :=
  s.filter (fun c => c != '-')

/-- Membership test for bare `'y'`: `true` iff the string has an occurrence
of `'y'` not immediately followed by `'ː'` (the occurrences matched by the
regex `y(?!ː)`). -/
def hasBareY : List Char → Bool
  | [] => false
  | c :: rest => decide (c = 'y' ∧ rest.head? ≠ some 'ː') || hasBareY rest

/-- Boolean test that `pat` is a prefix of `s`. -/
def startsWith : List Char → List Char → Bool
  | [], _ => true
  | _ :: _, [] => false
  | p :: ps, c :: cs => (p == c) && startsWith ps cs

/-- Boolean substring test: `pat` occurs contiguously inside `s`. -/
def containsSub (pat : List Char) : List Char → Bool
  | [] => startsWith pat []
  | c :: rest => startsWith pat (c :: rest) || containsSub pat rest

/-- Input to `BasePhonemizer.phonemize`: a single string or a list of strings. -/
inductive PyText where
  | scalar : List Char → PyText
  | batch : List (List Char) → PyText
deriving DecidableEq

/-- Embedding of `BasePhonemizer.phonemize` (phonemizers.py lines 64-75),
parameterised by the `preprocess` and `clean` hooks and by the engine's
batch function `g2p`.  The scalar case indexes `cleaned_list[0]`, which is
fallible in Python, so the embedding returns an `Option`. -/
def phonemize (preprocess clean : List Char → List Char)
    (g2p : List (List Char) → List (List Char)) : PyText → Option PyText
  | PyText.scalar s =>
    let texts := [s]
    let preprocessed := texts.map preprocess
    let phonemesList := g2p preprocessed
    let cleanedList := phonemesList.map clean
    cleanedList.head?.map PyText.scalar
  | PyText.batch texts =>
    let preprocessed := texts.map preprocess
    let phonemesList := g2p preprocessed
    let cleanedList := phonemesList.map clean
    some (PyText.batch cleanedList)

/-- Python truthiness fallback `language_code or self.default_code`
(both operands are `None` or a string; `None` and `""` are falsy). -/
def pyOrStr : Option String → Option String → Option String
  | some s, b => if s = "" then b else some s
  | none, b => b

/-- Error message of the `ValueError` raised by `BasePhonemizer.__init__`. -/
def languageCodeError : String :=
  "A language code must be provided either via argument or subclass default"

/-- State built by a successful `BasePhonemizer.__init__`: the resolved
language code and the constructed engine handle (engine type abstract). -/
structure PhonemizerState (E : Type) where
  code : String
  engine : E
deriving DecidableEq

/-- Embedding of `BasePhonemizer.__init__` (phonemizers.py lines 41-54):
resolve `self.code` via Python `or`, raise `ValueError` if it is falsy, and
only then construct the engine (`mkEngine`) with the resolved code. -/
def baseInit {E : Type} (mkEngine : String → E)
    (languageCode defaultCode : Option String) : Except String (PhonemizerState E) :=
  match pyOrStr languageCode defaultCode with
  | none => Except.error languageCodeError
  | some code =>
    if code = "" then Except.error languageCodeError
    else Except.ok ⟨code, mkEngine code⟩

/-- Registered phonemizer classes. -/
inductive PhonemizerKind where
  | french
  | german
deriving DecidableEq

/-- Embedding of the `CUSTOM_PHONEMIZERS` dict (phonemizers.py lines
114-117) as an association list. -/
def CUSTOM_PHONEMIZERS : List (String × PhonemizerKind) :=
  [("fr-fr", PhonemizerKind.french), ("de", PhonemizerKind.german)]

/-- Dictionary lookup `CUSTOM_PHONEMIZERS.get(code)`. -/
def registryLookup (code : String) : Option PhonemizerKind :=
  CUSTOM_PHONEMIZERS.lookup code

/-! ### Induction principles matching the recursion of the substitution passes -/

/-- Induction on character lists that mirrors the recursion of the two-character
replacement passes `subQQ` and `subIQ`. -/
def twoStepInduction {motive : List Char → Prop}
    (nil : motive [])
    (single : ∀ a, motive [a])
    (cons2 : ∀ a b rest, motive rest → motive (b :: rest) → motive (a :: b :: rest)) :
    ∀ s, motive s
  | [] => nil
  | [a] => single a
  | a :: b :: rest =>
    cons2 a b rest (twoStepInduction nil single cons2 rest)
      (twoStepInduction nil single cons2 (b :: rest))

/-- Induction on character lists that mirrors the recursion of the
four-character replacement pass `subIQQQ`. -/
def fourStepInduction {motive : List Char → Prop}
    (nil : motive [])
    (one : ∀ a, motive [a])
    (two : ∀ a b, motive [a, b])
    (three : ∀ a b c, motive [a, b, c])
    (cons4 : ∀ a b c d rest, motive rest → motive (b :: c :: d :: rest) →
      motive (a :: b :: c :: d :: rest)) :
    ∀ s, motive s
  | [] => nil
  | [a] => one a
  | [a, b] => two a b
  | [a, b, c] => three a b c
  | a :: b :: c :: d :: rest =>
    cons4 a b c d rest (fourStepInduction nil one two three cons4 rest)
      (fourStepInduction nil one two three cons4 (b :: c :: d :: rest))

/-! ### Head preservation lemmas -/

/-- The pass `subIQ` never changes the first character. -/
theorem subIQ_head (s : List Char) : (subIQ s).head? = s.head? := by
  match s with
  | [] => rfl
  | [a] => rfl
  | a :: b :: rest =>
    simp only [subIQ]
    split
    · rename_i h
      simp [h.1]
    · simp

/-- The pass `subIQQQ` never changes the first character. -/
theorem subIQQQ_head (s : List Char) : (subIQQQ s).head? = s.head? := by
  match s with
  | [] => rfl
  | [a] => rfl
  | [a, b] => rfl
  | [a, b, c] => rfl
  | a :: b :: c :: d :: rest =>
    simp only [subIQQQ]
    split
    · rename_i h
      simp [h.1]
    · simp

/-- The pass `subQQ` preserves a first character different from `'?'`. -/
theorem subQQ_head_ne (s : List Char) (c : Char) (hc : s.head? = some c)
    (hne : c ≠ '?') : (subQQ s).head? = some c := by
  match s with
  | [] => simp at hc
  | [a] => simpa [subQQ] using hc
  | a :: b :: rest =>
    simp only [List.head?_cons, Option.some.injEq] at hc
    subst hc
    simp only [subQQ]
    split
    · rename_i h
      exact absurd h.1 hne
    · simp

/-- The pass `subY` preserves a first character different from `'y'`. -/
theorem subY_head_ne (s : List Char) (c : Char) (hc : s.head? = some c)
    (hne : c ≠ 'y') : (subY s).head? = some c := by
  match s with
  | [] => simp at hc
  | a :: rest =>
    simp only [List.head?_cons, Option.some.injEq] at hc
    subst hc
    simp only [subY]
    split
    · rename_i h
      exact absurd h.1 hne
    · simp

/-! ### Characterising `startsWith` and `containsSub` -/

theorem startsWith_one_iff (q : Char) (l : List Char) :
    startsWith [q] l = true ↔ l.head? = some q := by
  match l with
  | [] => simp [startsWith]
  | c :: t =>
    simp only [startsWith, Bool.and_eq_true, beq_iff_eq, List.head?_cons,
      Option.some.injEq]
    constructor
    · rintro ⟨rfl, _⟩
      rfl
    · rintro rfl
      exact ⟨rfl, trivial⟩

theorem startsWith_pair_iff (p q : Char) (l : List Char) :
    startsWith [p, q] l = true ↔ ∃ t, l = p :: q :: t := by
  match l with
  | [] => simp [startsWith]
  | [a] => simp [startsWith]
  | a :: b :: t =>
    simp only [startsWith, Bool.and_eq_true, beq_iff_eq, List.cons.injEq]
    constructor
    · rintro ⟨rfl, rfl, _⟩
      exact ⟨t, rfl, rfl, rfl⟩
    · rintro ⟨t', rfl, rfl, rfl⟩
      simp [startsWith]

theorem startsWith_quad_iff (p q r w : Char) (l : List Char) :
    startsWith [p, q, r, w] l = true ↔ ∃ t, l = p :: q :: r :: w :: t := by
  match l with
  | [] => simp [startsWith]
  | [a] => simp [startsWith]
  | [a, b] => simp [startsWith]
  | [a, b, c] => simp [startsWith]
  | a :: b :: c :: d :: t =>
    simp only [startsWith, Bool.and_eq_true, beq_iff_eq, List.cons.injEq]
    constructor
    · rintro ⟨rfl, rfl, rfl, rfl, _⟩
      exact ⟨t, rfl, rfl, rfl, rfl, rfl⟩
    · rintro ⟨t', rfl, rfl, rfl, rfl, rfl⟩
      simp [startsWith]

theorem containsSub_cons (pat : List Char) (c : Char) (rest : List Char) :
    containsSub pat (c :: rest) =
      (startsWith pat (c :: rest) || containsSub pat rest) := rfl

/-! ### Bare `'y'` elimination and preservation -/

/-- After the `subY` pass no bare `'y'` remains. -/
theorem hasBareY_subY (s : List Char) : hasBareY (subY s) = false := by
  induction s with
  | nil => rfl
  | cons c rest ih =>
    simp only [subY]
    split
    · simp [hasBareY, ih]
    · rename_i h
      simp only [hasBareY, ih, Bool.or_false]
      rw [decide_eq_false_iff_not]
      rintro ⟨rfl, hne⟩
      push_neg at h
      exact hne (subY_head_ne rest 'ː' (h rfl) (by decide))

/-- The pass `subIQQQ` introduces no bare `'y'`. -/
theorem hasBareY_subIQQQ (s : List Char) (h : hasBareY s = false) :
    hasBareY (subIQQQ s) = false := by
  induction s using fourStepInduction with
  | nil => rfl
  | one a => simpa [subIQQQ] using h
  | two a b => simpa [subIQQQ] using h
  | three a b c => simpa [subIQQQ] using h
  | cons4 a b c d rest ih1 ih2 =>
    simp only [hasBareY, Bool.or_eq_false_iff, decide_eq_false_iff_not] at h
    obtain ⟨ha, hb, hc, hd, hrest⟩ := h
    simp only [subIQQQ]
    split
    · rename_i hpat
      have hr : hasBareY rest = false := hrest
      simp [hasBareY, ih1 hr]
    · rename_i hpat
      have htail : hasBareY (b :: c :: d :: rest) = false := by
        simp only [hasBareY, Bool.or_eq_false_iff, decide_eq_false_iff_not]
        exact ⟨hb, hc, hd, hrest⟩
      simp only [hasBareY, ih2 htail, Bool.or_false]
      rw [decide_eq_false_iff_not]
      rintro ⟨rfl, hne⟩
      push_neg at ha
      have hbl : (b :: c :: d :: rest).head? = some 'ː' := ha rfl
      rw [subIQQQ_head] at hne
      exact hne hbl

/-- The pass `subQQ` introduces no bare `'y'`. -/
theorem hasBareY_subQQ (s : List Char) (h : hasBareY s = false) :
    hasBareY (subQQ s) = false := by
  induction s using twoStepInduction with
  | nil => rfl
  | single a => simpa [subQQ] using h
  | cons2 a b rest ih1 ih2 =>
    simp only [hasBareY, Bool.or_eq_false_iff, decide_eq_false_iff_not] at h
    obtain ⟨ha, hb, hrest⟩ := h
    simp only [subQQ]
    split
    · rename_i hpat
      simp [hasBareY, ih1 hrest]
    · rename_i hpat
      have htail : hasBareY (b :: rest) = false := by
        simp only [hasBareY, Bool.or_eq_false_iff, decide_eq_false_iff_not]
        exact ⟨hb, hrest⟩
      simp only [hasBareY, ih2 htail, Bool.or_false]
      rw [decide_eq_false_iff_not]
      rintro ⟨rfl, hne⟩
      push_neg at ha
      have hbl : (b :: rest).head? = some 'ː' := ha rfl
      simp only [List.head?_cons, Option.some.injEq] at hbl
      subst hbl
      exact hne (subQQ_head_ne _ 'ː' rfl (by decide))

/-- The pass `subIQ` introduces no bare `'y'`. -/
theorem hasBareY_subIQ (s : List Char) (h : hasBareY s = false) :
    hasBareY (subIQ s) = false := by
  induction s using twoStepInduction with
  | nil => rfl
  | single a => simpa [subIQ] using h
  | cons2 a b rest ih1 ih2 =>
    simp only [hasBareY, Bool.or_eq_false_iff, decide_eq_false_iff_not] at h
    obtain ⟨ha, hb, hrest⟩ := h
    simp only [subIQ]
    split
    · rename_i hpat
      simp [hasBareY, ih1 hrest]
    · rename_i hpat
      have htail : hasBareY (b :: rest) = false := by
        simp only [hasBareY, Bool.or_eq_false_iff, decide_eq_false_iff_not]
        exact ⟨hb, hrest⟩
      simp only [hasBareY, ih2 htail, Bool.or_false]
      rw [decide_eq_false_iff_not]
      rintro ⟨rfl, hne⟩
      push_neg at ha
      have hbl : (b :: rest).head? = some 'ː' := ha rfl
      rw [subIQ_head] at hne
      exact hne hbl

theorem startsWith_pair_false_head (p q c : Char) (l : List Char) (h : c ≠ p) :
    startsWith [p, q] (c :: l) = false := by
  rw [Bool.eq_false_iff]
  intro hcon
  rw [startsWith_pair_iff] at hcon
  obtain ⟨t, ht⟩ := hcon
  simp only [List.cons.injEq] at ht
  exact h ht.1

theorem startsWith_pair_false_second (p q c : Char) (l : List Char)
    (h : l.head? ≠ some q) : startsWith [p, q] (c :: l) = false := by
  rw [Bool.eq_false_iff]
  intro hcon
  rw [startsWith_pair_iff] at hcon
  obtain ⟨t, ht⟩ := hcon
  simp only [List.cons.injEq] at ht
  apply h
  rw [ht.2]
  rfl

theorem startsWith_quad_imp_pair (p q r w : Char) (s : List Char)
    (h : startsWith [p, q, r, w] s = true) : startsWith [p, q] s = true := by
  rw [startsWith_quad_iff] at h
  obtain ⟨t, rfl⟩ := h
  rw [startsWith_pair_iff]
  exact ⟨r :: w :: t, rfl⟩

/-! ### Absence of the replaced patterns in the pass outputs -/

/-- The output of `subIQ` never contains the substring `"i?"`. -/
theorem no_iq_subIQ (s : List Char) : containsSub ['i', '?'] (subIQ s) = false := by
  induction s using twoStepInduction with
  | nil => rfl
  | single a =>
    simp only [subIQ, containsSub_cons, Bool.or_eq_false_iff]
    exact ⟨startsWith_pair_false_second _ _ _ _ (by simp), rfl⟩
  | cons2 a b rest ih1 ih2 =>
    simp only [subIQ]
    split
    · rename_i hpat
      simp only [containsSub_cons, Bool.or_eq_false_iff]
      refine ⟨startsWith_pair_false_second _ _ _ _ ?_,
        startsWith_pair_false_head _ _ _ _ (by decide), ih1⟩
      rw [List.head?_cons]
      simp
    · rename_i hpat
      simp only [containsSub_cons, Bool.or_eq_false_iff]
      refine ⟨?_, ih2⟩
      by_cases hai : a = 'i'
      · subst hai
        have hb : b ≠ '?' := fun hb => hpat ⟨rfl, hb⟩
        apply startsWith_pair_false_second
        rw [subIQ_head, List.head?_cons]
        simp [hb]
      · exact startsWith_pair_false_head _ _ _ _ hai

/-- The output of `subQQ` never contains the substring `"??"`. -/
theorem no_qq_subQQ (s : List Char) : containsSub ['?', '?'] (subQQ s) = false := by
  induction s using twoStepInduction with
  | nil => rfl
  | single a =>
    simp only [subQQ, containsSub_cons, Bool.or_eq_false_iff]
    exact ⟨startsWith_pair_false_second _ _ _ _ (by simp), rfl⟩
  | cons2 a b rest ih1 ih2 =>
    simp only [subQQ]
    split
    · rename_i hpat
      simp only [containsSub_cons, Bool.or_eq_false_iff]
      exact ⟨startsWith_pair_false_head _ _ _ _ (by decide),
        startsWith_pair_false_head _ _ _ _ (by decide), ih1⟩
    · rename_i hpat
      simp only [containsSub_cons, Bool.or_eq_false_iff]
      refine ⟨?_, ih2⟩
      by_cases haq : a = '?'
      · subst haq
        have hb : b ≠ '?' := fun hb => hpat ⟨rfl, hb⟩
        apply startsWith_pair_false_second
        rw [subQQ_head_ne (b :: rest) b rfl hb]
        simp [hb]
      · exact startsWith_pair_false_head _ _ _ _ haq

/-- The pass `subIQ` introduces no substring `"??"`. -/
theorem no_qq_subIQ (s : List Char) (h : containsSub ['?', '?'] s = false) :
    containsSub ['?', '?'] (subIQ s) = false := by
  induction s using twoStepInduction with
  | nil => rfl
  | single a => simpa [subIQ] using h
  | cons2 a b rest ih1 ih2 =>
    simp only [containsSub_cons, Bool.or_eq_false_iff] at h
    obtain ⟨h1, h2, h3⟩ := h
    simp only [subIQ]
    split
    · rename_i hpat
      simp only [containsSub_cons, Bool.or_eq_false_iff]
      exact ⟨startsWith_pair_false_head _ _ _ _ (by decide),
        startsWith_pair_false_head _ _ _ _ (by decide), ih1 h3⟩
    · rename_i hpat
      simp only [containsSub_cons, Bool.or_eq_false_iff]
      refine ⟨?_, ih2 ?_⟩
      · by_cases haq : a = '?'
        · subst haq
          have hb : b ≠ '?' := by
            rintro rfl
            rw [Bool.eq_false_iff] at h1
            exact h1 ((startsWith_pair_iff _ _ _).mpr ⟨rest, rfl⟩)
          apply startsWith_pair_false_second
          rw [subIQ_head, List.head?_cons]
          simp [hb]
        · exact startsWith_pair_false_head _ _ _ _ haq
      · simp only [containsSub_cons, Bool.or_eq_false_iff]
        exact ⟨h2, h3⟩

/-- A string with no substring `"i?"` has no substring `"i???"` either. -/
theorem no_iqqq_of_no_iq (t : List Char)
    (h : containsSub ['i', '?'] t = false) :
    containsSub ['i', '?', '?', '?'] t = false := by
  induction t with
  | nil => rfl
  | cons c rest ih =>
    simp only [containsSub_cons, Bool.or_eq_false_iff] at h ⊢
    obtain ⟨h1, h2⟩ := h
    refine ⟨?_, ih h2⟩
    rw [Bool.eq_false_iff] at h1 ⊢
    intro hq
    exact h1 (startsWith_quad_imp_pair _ _ _ _ _ hq)

/-! ### Fixpoint lemmas: a pass is the identity when its pattern is absent -/

/-- The pass `subY` fixes any string with no bare `'y'`. -/
theorem subY_eq_of_no_bare (s : List Char) (h : hasBareY s = false) :
    subY s = s := by
  induction s with
  | nil => rfl
  | cons c rest ih =>
    simp only [hasBareY, Bool.or_eq_false_iff, decide_eq_false_iff_not] at h
    obtain ⟨hc, hrest⟩ := h
    simp only [subY]
    split
    · rename_i hcond
      exact absurd hcond hc
    · rw [ih hrest]

/-- The pass `subIQQQ` fixes any string with no substring `"i???"`. -/
theorem subIQQQ_eq_of_no_iqqq (s : List Char)
    (h : containsSub ['i', '?', '?', '?'] s = false) : subIQQQ s = s := by
  induction s using fourStepInduction with
  | nil => rfl
  | one a => rfl
  | two a b => rfl
  | three a b c => rfl
  | cons4 a b c d rest ih1 ih2 =>
    simp only [containsSub_cons, Bool.or_eq_false_iff] at h
    obtain ⟨h1, h2, h3, h4, h5⟩ := h
    simp only [subIQQQ]
    split
    · rename_i hpat
      obtain ⟨rfl, rfl, rfl, rfl⟩ := hpat
      rw [Bool.eq_false_iff] at h1
      exact absurd (startsWith_quad_iff _ _ _ _ _ |>.mpr ⟨rest, rfl⟩) h1
    · rename_i hpat
      rw [ih2 ?_]
      simp only [containsSub_cons, Bool.or_eq_false_iff]
      exact ⟨h2, h3, h4, h5⟩

/-- The pass `subQQ` fixes any string with no substring `"??"`. -/
theorem subQQ_eq_of_no_qq (s : List Char)
    (h : containsSub ['?', '?'] s = false) : subQQ s = s := by
  induction s using twoStepInduction with
  | nil => rfl
  | single a => rfl
  | cons2 a b rest ih1 ih2 =>
    simp only [containsSub_cons, Bool.or_eq_false_iff] at h
    obtain ⟨h1, h2, h3⟩ := h
    simp only [subQQ]
    split
    · rename_i hpat
      obtain ⟨rfl, rfl⟩ := hpat
      rw [Bool.eq_false_iff] at h1
      exact absurd (startsWith_pair_iff _ _ _ |>.mpr ⟨rest, rfl⟩) h1
    · rename_i hpat
      rw [ih2 ?_]
      simp only [containsSub_cons, Bool.or_eq_false_iff]
      exact ⟨h2, h3⟩

/-- The pass `subIQ` fixes any string with no substring `"i?"`. -/
theorem subIQ_eq_of_no_iq (s : List Char)
    (h : containsSub ['i', '?'] s = false) : subIQ s = s := by
  induction s using twoStepInduction with
  | nil => rfl
  | single a => rfl
  | cons2 a b rest ih1 ih2 =>
    simp only [containsSub_cons, Bool.or_eq_false_iff] at h
    obtain ⟨h1, h2, h3⟩ := h
    simp only [subIQ]
    split
    · rename_i hpat
      obtain ⟨rfl, rfl⟩ := hpat
      rw [Bool.eq_false_iff] at h1
      exact absurd (startsWith_pair_iff _ _ _ |>.mpr ⟨rest, rfl⟩) h1
    · rename_i hpat
      rw [ih2 ?_]
      simp only [containsSub_cons, Bool.or_eq_false_iff]
      exact ⟨h2, h3⟩

/-! ### The composed German patch -/

/-- The patched output never contains the substring `"i?"`. -/
theorem germanPatch_no_iq (s : List Char) :
    containsSub ['i', '?'] (germanPatch s) = false :=
  no_iq_subIQ _

/-- The patched output never contains the substring `"??"`. -/
theorem germanPatch_no_qq (s : List Char) :
    containsSub ['?', '?'] (germanPatch s) = false :=
  no_qq_subIQ _ (no_qq_subQQ _)

/-- The patched output never contains a bare `'y'`. -/
theorem germanPatch_no_bare (s : List Char) :
    hasBareY (germanPatch s) = false :=
  hasBareY_subIQ _ (hasBareY_subQQ _ (hasBareY_subIQQQ _ (hasBareY_subY s)))

/-- The four substitution passes are jointly idempotent. -/
theorem germanPatch_idem (s : List Char) :
    germanPatch (germanPatch s) = germanPatch s := by
  rw [germanPatch]
  rw [subY_eq_of_no_bare _ (germanPatch_no_bare s)]
  rw [subIQQQ_eq_of_no_iqqq _ (no_iqqq_of_no_iq _ (germanPatch_no_iq s))]
  rw [subQQ_eq_of_no_qq _ (germanPatch_no_qq s)]
  rw [subIQ_eq_of_no_iq _ (germanPatch_no_iq s)]

/-! ### Claim theorems -/

/-- C1: for every engine version `v` with `(1,50,0) <= v < (1,52,0)` and every
input string `s`, `GermanCleanup(s)` equals the result of applying, in this
exact order: (1) replace every `'y'` not immediately followed by `'ː'` with
`'ʏ'`, (2) replace `"i???"` with `"iɐʊɐ"`, (3) replace `"??"` with `"ʊɐ"`,
(4) replace `"i?"` with `"iɐ"`.  In particular, for input `"i???"` the output
contains `"iɐʊɐ"` and not `"i???"`, and every bare `'y'` not followed by the
length marker becomes `'ʏ'` (no bare `'y'` survives in the output). -/
theorem german_clean_in_range (v : Version) (s : List Char)
    (h1 : versionLe ⟨1, 50, 0⟩ v = true) (h2 : versionLt v ⟨1, 52, 0⟩ = true) :
    germanClean v s = subIQ (subQQ (subIQQQ (subY s))) ∧
    containsSub ("iɐʊɐ".toList) (germanClean v ("i???".toList)) = true ∧
    containsSub ("i???".toList) (germanClean v ("i???".toList)) = false ∧
    hasBareY (germanClean v s) = false := by
  have hin : inPatchRange v = true := by
    simp [inPatchRange, h1, h2]
  have hgc : ∀ t, germanClean v t = germanPatch t := by
    intro t
    simp [germanClean, germanCleanRun, hin]
  refine ⟨by rw [hgc s]; rfl, ?_, ?_, ?_⟩
  · rw [hgc]
    decide
  · rw [hgc]
    decide
  · rw [hgc]
    exact germanPatch_no_bare s

/-- Witness for C1 at version `(1,50,0)` and input `"yai???"`. -/
theorem german_clean_in_range_witness :
    versionLe ⟨1, 50, 0⟩ ⟨1, 50, 0⟩ = true ∧
    versionLt ⟨1, 50, 0⟩ ⟨1, 52, 0⟩ = true ∧
    (germanClean ⟨1, 50, 0⟩ ("yai???".toList) =
        subIQ (subQQ (subIQQQ (subY ("yai???".toList)))) ∧
      containsSub ("iɐʊɐ".toList) (germanClean ⟨1, 50, 0⟩ ("i???".toList)) = true ∧
      containsSub ("i???".toList) (germanClean ⟨1, 50, 0⟩ ("i???".toList)) = false ∧
      hasBareY (germanClean ⟨1, 50, 0⟩ ("yai???".toList)) = false) :=
  ⟨by decide, by decide,
    german_clean_in_range ⟨1, 50, 0⟩ ("yai???".toList) (by decide) (by decide)⟩

/-- C2: for every engine version outside `[1.50.0, 1.52.0)` (below the lower
bound or at/above the upper bound) and every input string, the German cleanup
returns its input unchanged and emits no diagnostics. -/
theorem german_clean_out_of_range (v : Version) (s : List Char)
    (h : versionLt v ⟨1, 50, 0⟩ = true ∨ versionLe ⟨1, 52, 0⟩ v = true) :
    germanCleanRun v s = (s, []) := by
  have hout : inPatchRange v = false := by
    obtain ⟨x, y, z⟩ := v
    simp only [versionLt, versionLe, decide_eq_true_eq] at h
    simp only [inPatchRange, versionLt, versionLe, Bool.and_eq_false_iff,
      decide_eq_false_iff_not]
    omega
  simp [germanCleanRun, hout]

/-- Witness for C2 at version `(1,49,3)` and input `"i???"`. -/
theorem german_clean_out_of_range_witness :
    (versionLt ⟨1, 49, 3⟩ ⟨1, 50, 0⟩ = true ∨
      versionLe ⟨1, 52, 0⟩ ⟨1, 49, 3⟩ = true) ∧
    germanCleanRun ⟨1, 49, 3⟩ ("i???".toList) = ("i???".toList, []) :=
  ⟨Or.inl (by decide),
    german_clean_out_of_range ⟨1, 49, 3⟩ ("i???".toList) (Or.inl (by decide))⟩

/-- C3: for every input string `s`, `FrenchCleanup(s)` is exactly `s` with
every hyphen removed (so no other character is changed, added or removed),
and the result contains no hyphen. -/
theorem french_clean_spec (s : List Char) :
    frenchClean s = removeHyphens s ∧ decide ('-' ∈ frenchClean s) = false := by
  have heq : frenchClean s = removeHyphens s := by
    induction s with
    | nil => rfl
    | cons c rest ih =>
      by_cases hc : c = '-'
      · subst hc
        simp [frenchClean, removeHyphens, List.filter_cons, ih]
      · simp [frenchClean, removeHyphens, List.filter_cons, hc, ih]
  refine ⟨heq, ?_⟩
  rw [decide_eq_false_iff_not, heq, removeHyphens]
  intro hmem
  simp only [List.mem_filter, bne_self_eq_false] at hmem
  exact Bool.false_ne_true hmem.2

/-- C4: under the hypothesis that the engine's batch call phonemizes each
input in order (one output per input), `phonemize` on a batch of `N` texts
returns a batch of exactly `N` strings whose `i`-th element is the cleaned
phonemization of the `i`-th input. -/
theorem phonemize_batch_spec (preprocess clean engine : List Char → List Char)
    (g2p : List (List Char) → List (List Char))
    (hg : ∀ xs, g2p xs = xs.map engine) (texts : List (List Char)) :
    phonemize preprocess clean g2p (PyText.batch texts) =
      some (PyText.batch (texts.map (fun t => clean (engine (preprocess t))))) ∧
    (texts.map (fun t => clean (engine (preprocess t)))).length = texts.length := by
  constructor
  · simp [phonemize, hg, List.map_map, Function.comp]
  · simp

/-- Witness for C4 with the identity engine on a concrete two-text batch. -/
theorem phonemize_batch_spec_witness :
    phonemize id id id (PyText.batch ["ab".toList, "cd".toList]) =
      some (PyText.batch (["ab".toList, "cd".toList].map (fun t => id (id (id t))))) ∧
    (["ab".toList, "cd".toList].map (fun t => id (id (id t)))).length =
      (["ab".toList, "cd".toList] : List (List Char)).length :=
  phonemize_batch_spec id id id id (fun xs => (List.map_id xs).symm)
    ["ab".toList, "cd".toList]

/-- C5: with the same engine function in both runs (one output per input),
`phonemize` on a scalar string returns a single string equal to the first and
only element of `phonemize` applied to the one-element batch. -/
theorem phonemize_scalar_batch_spec (preprocess clean engine : List Char → List Char)
    (g2p : List (List Char) → List (List Char))
    (hg : ∀ xs, g2p xs = xs.map engine) (x : List Char) :
    phonemize preprocess clean g2p (PyText.scalar x) =
      some (PyText.scalar (clean (engine (preprocess x)))) ∧
    phonemize preprocess clean g2p (PyText.batch [x]) =
      some (PyText.batch [clean (engine (preprocess x))]) := by
  constructor <;> simp [phonemize, hg]

/-- Witness for C5 with the identity engine on the scalar `"ab"`. -/
theorem phonemize_scalar_batch_spec_witness :
    phonemize id id id (PyText.scalar ("ab".toList)) =
      some (PyText.scalar (id (id (id ("ab".toList))))) ∧
    phonemize id id id (PyText.batch ["ab".toList]) =
      some (PyText.batch [id (id (id ("ab".toList)))]) :=
  phonemize_scalar_batch_spec id id id id (fun xs => (List.map_id xs).symm)
    ("ab".toList)

/-- C6: constructing a phonemizer with a missing (`None`) or empty language
code, when the subclass default is also missing or empty, fails immediately
with the configuration `ValueError` — for every possible engine constructor,
so no engine is ever built, and the single attempt is not retried. -/
theorem base_init_missing_code {E : Type} (mkEngine : String → E)
    (languageCode defaultCode : Option String)
    (hlc : languageCode = none ∨ languageCode = some "")
    (hdc : defaultCode = none ∨ defaultCode = some "") :
    baseInit mkEngine languageCode defaultCode = Except.error languageCodeError := by
  rcases hlc with rfl | rfl <;> rcases hdc with rfl | rfl <;> rfl

/-- Witness for C6 with `languageCode = none` and empty subclass default. -/
theorem base_init_missing_code_witness :
    baseInit (E := Unit) (fun _ => ()) none (some "") = Except.error languageCodeError :=
  base_init_missing_code (fun _ => ()) none (some "") (Or.inl rfl) (Or.inr rfl)

/-- C9 (implicit): for a subclass with a non-empty default code (French
`"fr-fr"`, German `"de"`), constructing with `None` or empty language code
does not raise; the instance's stored code is the subclass default. -/
theorem base_init_default_fallback {E : Type} (mkEngine : String → E)
    (languageCode : Option String)
    (hlc : languageCode = none ∨ languageCode = some "")
    (d : String) (hd : d ≠ "") :
    baseInit mkEngine languageCode (some d) = Except.ok ⟨d, mkEngine d⟩ := by
  rcases hlc with rfl | rfl <;> simp [baseInit, pyOrStr, hd]

/-- Witness for C9 at the French default `"fr-fr"` and the German default `"de"`. -/
theorem base_init_default_fallback_witness :
    baseInit (E := String) (fun c => c) none (some "fr-fr") =
      Except.ok ⟨"fr-fr", "fr-fr"⟩ ∧
    baseInit (E := String) (fun c => c) (some "") (some "de") =
      Except.ok ⟨"de", "de"⟩ :=
  ⟨base_init_default_fallback _ none (Or.inl rfl) "fr-fr" (by decide),
    base_init_default_fallback _ (some "") (Or.inr rfl) "de" (by decide)⟩

/-- C7: registry lookup for `"fr-fr"` returns the French phonemizer and for
`"de"` the German one; lookup for any other code (such as `"en-us"`) yields
no entry rather than an error. -/
theorem registry_spec :
    registryLookup "fr-fr" = some PhonemizerKind.french ∧
    registryLookup "de" = some PhonemizerKind.german ∧
    ∀ code : String, code ≠ "fr-fr" → code ≠ "de" → registryLookup code = none := by
  refine ⟨rfl, rfl, ?_⟩
  intro code h1 h2
  have hb1 : (code == "fr-fr") = false := beq_eq_false_iff_ne.mpr h1
  have hb2 : (code == "de") = false := beq_eq_false_iff_ne.mpr h2
  simp [registryLookup, CUSTOM_PHONEMIZERS, List.lookup, hb1, hb2]

/-- Witness for C7 at the unregistered code `"en-us"`. -/
theorem registry_spec_witness : registryLookup "en-us" = none :=
  registry_spec.2.2 "en-us" (by decide) (by decide)

/-- C8: `FrenchCleanup` is idempotent. -/
theorem french_clean_idem (s : List Char) :
    frenchClean (frenchClean s) = frenchClean s := by
  induction s with
  | nil => rfl
  | cons c rest ih =>
    by_cases hc : c = '-'
    · subst hc
      simp [frenchClean, ih]
    · simp [frenchClean, hc, ih]

/-- C10 (implicit): `GermanCleanup` is idempotent for every engine version:
inside the affected range the first pass leaves no bare `'y'`, no `"??"` and
no `"i?"`, so a second pass performs no substitution; outside the range it is
the identity. -/
theorem german_clean_idem (v : Version) (s : List Char) :
    germanClean v (germanClean v s) = germanClean v s := by
  by_cases hin : inPatchRange v = true
  · simp [germanClean, germanCleanRun, hin, germanPatch_idem]
  · rw [Bool.not_eq_true] at hin
    simp [germanClean, germanCleanRun, hin]

end NeuTTS
